import Mathlib

/-!
Verification of the Sketchfab search actor (`src/main.py`) against its
natural-language specification.

The embedding below translates the pure data-flow of the actor into Lean:

* JSON-like values are modelled by `Value`; Python dictionaries by
  insertion-ordered association lists (`Dict`) with Python assignment
  semantics (overwrite in place, append when absent).
* The two external effectful collaborators — the Gemini NLU call and the
  remote Sketchfab HTTP call — are modelled as oracle arguments
  (`NluOutcome`, `ApiOutcome`): each constructor corresponds to one fate of
  the corresponding `try` block in the source.
* String helpers (`str.split()`, `str.lower()`, `str.replace`,
  `urllib.parse.urlparse` / `parse_qs`) are translated at the character-list
  level, restricted to ASCII case mapping and to the byte-level part of
  percent-decoding; the theorems that rely on them only ever instantiate
  them on inputs where these restrictions are invisible.
-/

set_option autoImplicit false

/-- JSON-like value carried in actor input, search parameters and results. -/
inductive Value where
  | null : Value
  | bool : Bool → Value
  | int : Int → Value
  | str : String → Value
  | arr : List Value → Value

/-- Python `dict` with string keys, as an insertion-ordered association list. -/
abbrev Dict := List (String × Value)

/-- Python `d.get(k)` / `d[k]`: value at the first (unique) occurrence of `k`. -/
def dictGet : Dict → String → Option Value
  | [], _ => none
  | (k', v) :: rest, k => if k' = k then some v else dictGet rest k

/-- Python `d[k] = v`: overwrite the first occurrence in place, else append. -/
def dictSet : Dict → String → Value → Dict
  | [], k, v => [(k, v)]
  | (k', v') :: rest, k, v =>
    if k' = k then (k, v) :: rest else (k', v') :: dictSet rest k v

/-- Keys of a dictionary, in order. -/
def dictKeys (d : Dict) : List String := d.map Prod.fst

/-- Well-formedness of a `Dict` coming from a real Python dict: no duplicate keys. -/
def NodupKeys (d : Dict) : Prop := (dictKeys d).Nodup

/-- Python truthiness of a JSON value (`if value:`). -/
def Value.truthy : Value → Bool
  | .null => false
  | .bool b => b
  | .int n => n ≠ 0
  | .str s => s ≠ ""
  | .arr xs => !xs.isEmpty

/-- The filter `value is not None and value != "" and value != []` used both by
`manual_processing_node` and by `sketchfab_api_node`.  Python's `!=` across
types: only the string `""` equals `""` and only the empty list equals `[]`,
so the check is exactly this pattern match. -/
def passes : Value → Bool
  | .null => false
  | .str s => s ≠ ""
  | .arr [] => false
  | _ => true

/-! ## Character-level helpers (Python string / URL functions) -/

/-- Whitespace recognised by Python's `str.split()` (ASCII part). -/
def isPySpace (c : Char) : Bool :=
  c = ' ' || c = '\t' || c = '\n' || c = '\r' || c = '\x0b' || c = '\x0c'

/-- ASCII uppercase→lowercase table. -/
def lowerTable : List (Char × Char) :=
  [('A', 'a'), ('B', 'b'), ('C', 'c'), ('D', 'd'), ('E', 'e'), ('F', 'f'),
   ('G', 'g'), ('H', 'h'), ('I', 'i'), ('J', 'j'), ('K', 'k'), ('L', 'l'),
   ('M', 'm'), ('N', 'n'), ('O', 'o'), ('P', 'p'), ('Q', 'q'), ('R', 'r'),
   ('S', 's'), ('T', 't'), ('U', 'u'), ('V', 'v'), ('W', 'w'), ('X', 'x'),
   ('Y', 'y'), ('Z', 'z')]

/-- ASCII case mapping of Python's `str.lower()`, one character. -/
def pyCharLower (c : Char) : Char :=
  ((lowerTable.find? (fun p => p.1 = c)).map Prod.snd).getD c

/-- Python `str.lower()` on a character list. -/
def pyLower (cs : List Char) : List Char := cs.map pyCharLower

/-- Worker for `splitWs`: `cur` is the reversed current token. -/
def splitWsGo : List Char → List Char → List (List Char)
  | cur, [] => if cur.isEmpty then [] else [cur.reverse]
  | cur, c :: cs =>
    if isPySpace c then
      if cur.isEmpty then splitWsGo [] cs else cur.reverse :: splitWsGo [] cs
    else splitWsGo (c :: cur) cs

/-- Python `str.split()` with no argument: maximal runs of non-whitespace. -/
def splitWs (cs : List Char) : List (List Char) := splitWsGo [] cs

/-- Python `str.replace(old, new)` for a one-character pattern, as used by
`w.replace(" ", "-")` in the AI fallback. -/
def replaceChar (a b : Char) (cs : List Char) : List Char :=
  cs.map (fun c => if c = a then b else c)

/-- Python `" ".join(words)` at the character level. -/
def joinSpace : List (List Char) → List Char
  | [] => []
  | [w] => w
  | w :: ws => w ++ ' ' :: joinSpace ws

/-- Characters up to (excluding) the first occurrence of `c`; the whole list
if `c` is absent.  Models `s.split(sep, 1)[0]`. -/
def takeUntil (c : Char) : List Char → List Char
  | [] => []
  | x :: xs => if x = c then [] else x :: takeUntil c xs

/-- Python `s.split(sep, 1)` when the separator occurs: the two parts around
the first occurrence of `c`, `none` when `c` is absent. -/
def splitFirst (c : Char) : List Char → Option (List Char × List Char)
  | [] => none
  | x :: xs =>
    if x = c then some ([], xs)
    else
      match splitFirst c xs with
      | none => none
      | some (a, b) => some (x :: a, b)

/-- Python `s.split(sep)` (full split) on one character. -/
def splitOnChar (c : Char) : List Char → List (List Char)
  | [] => [[]]
  | x :: xs =>
    if x = c then [] :: splitOnChar c xs
    else
      match splitOnChar c xs with
      | [] => [[x]]
      | h :: t => (x :: h) :: t

/-- The `+` → space step of `urllib.parse.parse_qs` component decoding. -/
def plusToSpace (cs : List Char) : List Char :=
  cs.map (fun c => if c = '+' then ' ' else c)

/-- Value of an ASCII hex digit. -/
def hexDigitVal : Char → Option Nat
  | c =>
    if '0' ≤ c ∧ c ≤ '9' then some (c.toNat - '0'.toNat)
    else if 'a' ≤ c ∧ c ≤ 'f' then some (c.toNat - 'a'.toNat + 10)
    else if 'A' ≤ c ∧ c ≤ 'F' then some (c.toNat - 'A'.toNat + 10)
    else none

/-- Worker for `percentDecode`.  The scan consumes at least one character per
step; the `Nat` argument is a structural bound on the number of steps (the
input length always suffices), so the definition reduces in the kernel. -/
def percentDecodeFuel : Nat → List Char → List Char
  | 0, cs => cs
  | _ + 1, [] => []
  | fuel + 1, c :: rest =>
    if c = '%' then
      match rest with
      | a :: b :: rest' =>
        match hexDigitVal a, hexDigitVal b with
        | some ha, some hb => Char.ofNat (16 * ha + hb) :: percentDecodeFuel fuel rest'
        | _, _ => '%' :: percentDecodeFuel fuel rest
      | _ => '%' :: percentDecodeFuel fuel rest
    else c :: percentDecodeFuel fuel rest

/-- Byte-level part of `urllib.parse.unquote`: decode `%HH` escapes with valid
hex digits, leave invalid escapes untouched (re-scanning from the character
after the invalid `%`, as `unquote` does). -/
def percentDecode (cs : List Char) : List Char :=
  percentDecodeFuel cs.length cs

/-- Decoding applied by `parse_qs` to each name and value:
`unquote(component.replace('+', ' '))`. -/
def decodeComponent (cs : List Char) : List Char :=
  percentDecode (plusToSpace cs)

/-- Scan of the `&`-separated fields performed by `parse_qs` with default
options (skip empty fields, skip fields without `=`, skip empty values),
returning the decoded value of the first field whose decoded name is `key` —
exactly what `parse_qs(query).get(key, [None])[0]` yields. -/
def firstValueFor (key : List Char) : List (List Char) → Option (List Char)
  | [] => none
  | f :: fs =>
    if f.isEmpty then firstValueFor key fs
    else
      match splitFirst '=' f with
      | none => firstValueFor key fs
      | some (n, v) =>
        if v.isEmpty then firstValueFor key fs
        else if decodeComponent n = key then some (decodeComponent v)
        else firstValueFor key fs

/-- Specification helper for building query strings in theorem statements:
a list of fields, each terminated by `&`, concatenated. -/
def joinFieldsAmp (fields : List (List Char)) : List Char :=
  fields.foldr (fun f acc => f ++ '&' :: acc) []

/-- Core of `parse_cursor_from_url` on the characters of the URL:
`urlparse` keeps the query between the first `?` and the first `#`
(fragment split happens first), and `parse_qs(...).get("cursor", [None])[0]`
is `firstValueFor` over the `&`-split fields. -/
def parseCursorChars (cs : List Char) : Option (List Char) :=
  if cs.isEmpty then none
  else
    let noFrag := takeUntil '#' cs
    match splitFirst '?' noFrag with
    | none => none
    | some (_, query) =>
      firstValueFor ("cursor".toList) (splitOnChar '&' query)

/-- `parse_cursor_from_url` from the source: total (the body is wrapped in a
catch-all `try`), `None` on a missing or empty URL. -/
def parse_cursor_from_url (url : Option String) : Option String :=
  match url with
  | none => none
  | some u => (parseCursorChars u.toList).map String.mk

/-! ## Pipeline data model -/

/-- Parsed JSON body of a successful Sketchfab response, as consumed by the
source: `data.get("results", [])`, `data.get("next")`, `data.get("previous")`. -/
structure ApiResponse where
  results : List Value := []
  next : Option String := none
  previous : Option String := none

/-- Return value of `extract_pagination_info`. -/
structure PaginationInfo where
  next_url : Option String
  previous_url : Option String
  next_cursor : Option String
  previous_cursor : Option String
  has_next : Bool
  has_previous : Bool
deriving DecidableEq

/-- `extract_pagination_info` from the source. -/
def extract_pagination_info (r : ApiResponse) : PaginationInfo :=
  { next_url := r.next
    previous_url := r.previous
    next_cursor := parse_cursor_from_url r.next
    previous_cursor := parse_cursor_from_url r.previous
    has_next := r.next.isSome
    has_previous := r.previous.isSome }

/-- Diagnostic dictionary `state["metadata"]` accumulated by the nodes.
(The `api_url` diagnostic set on success is omitted: it is never read by the
output assembly.) -/
structure Metadata where
  ai_used : Option Bool := none
  fallback : Option Bool := none
  original_query : Option String := none
  generated_q : Option Value := none
  generated_tags : Option Value := none
  result_count : Option Nat := none
  ai_error : Option String := none

/-- The LangGraph `GraphState`, restricted to the fields the nodes read or
write.  `use_ai` and `natural_query` are read according to their declared
types (`bool`, `str`). -/
structure PState where
  actor_input : Dict := []
  natural_query : String := ""
  use_ai : Bool := false
  cursor : Option String := none
  count : Int := 24
  search_params : Dict := []
  results : List Value := []
  pagination : Option PaginationInfo := none
  error : Option String := none
  meta : Metadata := {}

/-- Fate of the Gemini call inside `ai_processing_node`'s `try` block:
no API key configured, a parsed JSON candidate, or an exception. -/
inductive NluOutcome where
  | noKey : NluOutcome
  | success : Dict → NluOutcome
  | failure : String → NluOutcome

/-- Fate of the HTTP call inside `sketchfab_api_node`'s `try` block: a parsed
2xx JSON body, or any exception (timeout, `raise_for_status`, JSON error),
carrying `str(e)`. -/
inductive ApiOutcome where
  | success : ApiResponse → ApiOutcome
  | failure : String → ApiOutcome

/-! ## Node functions -/

/-- `route_decision` from the source: `if state["use_ai"] and
state["natural_query"]`.  Truthiness of a `str` is non-emptiness; there is no
trimming. -/
def route_decision (use_ai : Bool) (natural_query : String) : String :=
  if use_ai && natural_query ≠ "" then "ai_processing" else "manual_processing"

/-- Fallback parameter derivation used by `ai_processing_node` when no Google
API key is configured or the Gemini call raises:
`words = natural_query.lower().split()`, `q = " ".join(words[:3])`,
`tags = [w.replace(" ", "-") for w in words[:5] if len(w) > 2]`. -/
def fallback_params (natural_query : String) : Dict :=
  let words := splitWs (pyLower natural_query.toList)
  let q := joinSpace (words.take 3)
  let tags := ((words.take 5).filter (fun w => w.length > 2)).map (replaceChar ' ' '-')
  [("q", Value.str (String.mk q)),
   ("tags", Value.arr (tags.map (fun t => Value.str (String.mk t)))),
   ("downloadable", Value.bool true)]

/-- Post-processing `ai_processing_node` applies to the parsed Gemini result:
`if "downloadable" not in result or result["downloadable"] is None:
result["downloadable"] = True`.  Nothing else is validated or filtered. -/
def ai_result_postprocess (result : Dict) : Dict :=
  match dictGet result "downloadable" with
  | none => dictSet result "downloadable" (Value.bool true)
  | some Value.null => dictSet result "downloadable" (Value.bool true)
  | some _ => result

/-- The 18 category slugs enumerated in the source's system prompt
(`SEARCH_SYSTEM_PROMPT`, the only place the enumeration exists). -/
def category_slugs : List String :=
  ["animals-pets", "architecture", "art-abstract", "cars-vehicles",
   "characters-creatures", "cultural-heritage-history", "electronics-gadgets",
   "fashion-style", "food-drink", "furniture-home", "music", "nature-plants",
   "news-politics", "people", "places-travel", "science-technology",
   "sports-fitness", "weapons-military"]

/-- `ai_processing_node` as a function of the Gemini oracle. -/
def ai_processing_node (nlu : NluOutcome) (s : PState) : PState :=
  match nlu with
  | .noKey =>
    { s with
      search_params := fallback_params s.natural_query
      meta := { s.meta with ai_used := some false, fallback := some true } }
  | .success cand =>
    let result := ai_result_postprocess cand
    { s with
      search_params := result
      meta := { s.meta with
        ai_used := some true
        original_query := some s.natural_query
        generated_q := some ((dictGet result "q").getD (Value.str ""))
        generated_tags := some ((dictGet result "tags").getD (Value.arr [])) } }
  | .failure msg =>
    { s with
      search_params := fallback_params s.natural_query
      meta := { s.meta with ai_used := some false, ai_error := some msg } }

/-- Control keys excluded by `manual_processing_node`. -/
def excluded_keys : List String :=
  ["useAI", "naturalQuery", "googleApiKey", "cursor", "count"]

/-- The dict comprehension in `manual_processing_node`. -/
def manual_filter (actor_input : Dict) : Dict :=
  actor_input.filter (fun kv => !excluded_keys.contains kv.1 && passes kv.2)

/-- Search parameters produced by `manual_processing_node`: the filtered
input, with `downloadable = True` appended when the key is absent. -/
def manual_search_params (actor_input : Dict) : Dict :=
  let sp := manual_filter actor_input
  match dictGet sp "downloadable" with
  | none => dictSet sp "downloadable" (Value.bool true)
  | some _ => sp

/-- `manual_processing_node`. -/
def manual_processing_node (s : PState) : PState :=
  { s with
    search_params := manual_search_params s.actor_input
    meta := { s.meta with ai_used := some false } }

/-- The parameter-building loop of `sketchfab_api_node`: starting from
`{"type": "models"}`, assign every search parameter passing the non-empty
filter, in order. -/
def addParams (init : Dict) (sp : Dict) : Dict :=
  sp.foldl (fun p kv => if passes kv.2 then dictSet p kv.1 kv.2 else p) init

/-- Specification helper for reasoning about `addParams`: the value the
assignment loop leaves behind for key `k` is the last entry for `k` passing
the non-empty filter, if any. -/
def lastPassing : Dict → String → Option Value
  | [], _ => none
  | (k', v) :: rest, k =>
    match lastPassing rest k with
    | some w => some w
    | none => if k' = k ∧ passes v then some v else none

/-- The wire-ready parameter mapping built by `sketchfab_api_node`:
`params = {"type": "models"}`, then the filtered search params, then
`params["count"] = count` unconditionally, then `params["cursor"] = cursor`
only when the cursor is truthy (non-`None`, non-empty). -/
def build_api_params (search_params : Dict) (cursor : Option String) (count : Int) : Dict :=
  let params : Dict := [("type", Value.str "models")]
  let params := addParams params search_params
  let params := dictSet params "count" (Value.int count)
  match cursor with
  | some c => if c ≠ "" then dictSet params "cursor" (Value.str c) else params
  | none => params

/-- `sketchfab_api_node`: returns the successor state and the parameter
mapping the single HTTP request was issued with.  The request is issued on
every invocation — there is no validation before it. -/
def sketchfab_api_node (t : ApiOutcome) (s : PState) : PState × Dict :=
  let params := build_api_params s.search_params s.cursor s.count
  match t with
  | .success r =>
    ({ s with
       results := r.results
       pagination := some (extract_pagination_info r)
       meta := { s.meta with result_count := some r.results.length } }, params)
  | .failure msg =>
    ({ s with error := some msg, results := [], pagination := none }, params)

/-- The metadata dictionary pushed first by `output_node`, with the
`.get(..., default)` reads made explicit. -/
structure MetaRecord where
  _metadata : Bool
  search_params : Dict
  ai_powered : Bool
  original_query : Option String
  generated_q : Value
  generated_tags : Value
  result_count : Nat
  pagination : Option PaginationInfo
  error : Option String

/-- Builds the metadata record from the final state, as `output_node` does. -/
def metadata_record (s : PState) : MetaRecord :=
  { _metadata := true
    search_params := s.search_params
    ai_powered := s.meta.ai_used.getD false
    original_query := s.meta.original_query
    generated_q := s.meta.generated_q.getD (Value.str "")
    generated_tags := s.meta.generated_tags.getD (Value.arr [])
    result_count := s.meta.result_count.getD 0
    pagination := s.pagination
    error := s.error }

/-- One record appended to the dataset by `Actor.push_data`. -/
inductive Record where
  | metaRec : MetaRecord → Record
  | itemRec : Value → Record

/-- `output_node`: push the metadata record, then every raw result in order. -/
def output_records (s : PState) : List Record :=
  Record.metaRec (metadata_record s) :: s.results.map Record.itemRec

/-- Is a record the metadata record? -/
def Record.isMeta : Record → Bool
  | .metaRec _ => true
  | .itemRec _ => false

/-- Payload of a result record. -/
def Record.itemPayload : Record → Option Value
  | .metaRec _ => none
  | .itemRec v => some v

/-! ## Whole-pipeline composition (`main` + the compiled graph) -/

/-- Initial `GraphState` built in `main` from the actor input, with the typed
reads (`useAI` boolean, `naturalQuery` string, `cursor` optional string,
`count` integer defaulting to 24). -/
def initial_state (actor_input : Dict) : PState :=
  { actor_input := actor_input
    natural_query :=
      match dictGet actor_input "naturalQuery" with
      | some (Value.str s) => s
      | _ => ""
    use_ai := ((dictGet actor_input "useAI").getD (Value.bool false)).truthy
    cursor :=
      match dictGet actor_input "cursor" with
      | some (Value.str s) => some s
      | _ => none
    count :=
      match dictGet actor_input "count" with
      | some (Value.int n) => n
      | _ => 24 }

/-- Result of one actor invocation: final state, the parameter mapping sent
to the search endpoint, and the ordered dataset records. -/
structure PipelineRun where
  final : PState
  request : Dict
  records : List Record

/-- Raw result items carried by a transport outcome: what `results =
data.get("results", [])` yields on success, `[]` on the failure path. -/
def transport_results : ApiOutcome → List Value
  | .success r => r.results
  | .failure _ => []

/-- Modelled from the spec's words, for comparison with `fallback_params`:
"up to 5 of the remaining tokens longer than 2 characters become tags
(hyphenated)" — the tokens REMAINING after the first 3 taken for the keyword
query. -/
def spec_fallback_tags (natural_query : String) : List (List Char) :=
  let words := splitWs (pyLower natural_query.toList)
  (((words.drop 3).filter (fun w => w.length > 2)).take 5).map (replaceChar ' ' '-')

/-- One invocation of the compiled LangGraph workflow: conditional entry via
`route_decision`, the chosen processing node, `sketchfab_api_node`, then
`output_node`. -/
def run_pipeline (actor_input : Dict) (nlu : NluOutcome) (t : ApiOutcome) : PipelineRun :=
  let s0 := initial_state actor_input
  let s1 :=
    if route_decision s0.use_ai s0.natural_query = "ai_processing" then
      ai_processing_node nlu s0
    else manual_processing_node s0
  let s2 := sketchfab_api_node t s1
  { final := s2.1, request := s2.2, records := output_records s2.1 }

/-! ## Dictionary lemmas -/

theorem dictGet_dictSet_self (d : Dict) (k : String) (v : Value) :
    dictGet (dictSet d k v) k = some v := by
  induction d with
  | nil => simp [dictSet, dictGet]
  | cons kv rest ih =>
    obtain ⟨k', v'⟩ := kv
    by_cases h : k' = k <;> simp [dictSet, dictGet, h, ih]

theorem dictGet_dictSet_ne (d : Dict) (kset kget : String) (v : Value)
    (h : kset ≠ kget) : dictGet (dictSet d kset v) kget = dictGet d kget := by
  induction d with
  | nil => simp [dictSet, dictGet, h]
  | cons kv rest ih =>
    obtain ⟨k', v'⟩ := kv
    by_cases h' : k' = kset
    · subst h'
      simp [dictSet, dictGet, h]
    · by_cases h2 : k' = kget <;> simp [dictSet, dictGet, h', h2, Ne.symm h, ih]

theorem mem_dictSet {d : Dict} {k : String} {v : Value} {kv : String × Value}
    (h : kv ∈ dictSet d k v) : kv = (k, v) ∨ kv ∈ d := by
  induction d with
  | nil => simpa [dictSet] using h
  | cons kv' rest ih =>
    obtain ⟨k', v'⟩ := kv'
    by_cases he : k' = k
    · simp [dictSet, he] at h
      rcases h with h | h
      · exact Or.inl h
      · exact Or.inr (List.mem_cons_of_mem _ h)
    · simp [dictSet, he] at h
      rcases h with h | h
      · exact Or.inr (by simp [h])
      · rcases ih h with h' | h'
        · exact Or.inl h'
        · exact Or.inr (List.mem_cons_of_mem _ h')

theorem dictKeys_dictSet (d : Dict) (k : String) (v : Value) :
    (k ∈ dictKeys d ∧ dictKeys (dictSet d k v) = dictKeys d) ∨
      (k ∉ dictKeys d ∧ dictKeys (dictSet d k v) = dictKeys d ++ [k]) := by
  induction d with
  | nil => right; simp [dictSet, dictKeys]
  | cons kv rest ih =>
    obtain ⟨k', v'⟩ := kv
    by_cases he : k' = k
    · subst he
      left
      simp [dictSet, dictKeys]
    · rcases ih with ⟨hm, heq⟩ | ⟨hm, heq⟩
      · left
        constructor
        · simp [dictKeys]
          right
          simpa [dictKeys] using hm
        · simp only [dictSet, if_neg he, dictKeys, List.map_cons]
          simpa [dictKeys] using heq
      · right
        constructor
        · simp [dictKeys]
          refine ⟨fun hc => he hc.symm, ?_⟩
          simpa [dictKeys] using hm
        · simp only [dictSet, if_neg he, dictKeys, List.map_cons]
          simp only [dictKeys] at heq
          simp [heq]

theorem nodupKeys_dictSet {d : Dict} (k : String) (v : Value)
    (h : NodupKeys d) : NodupKeys (dictSet d k v) := by
  rcases dictKeys_dictSet d k v with ⟨_, heq⟩ | ⟨hm, heq⟩
  · rw [NodupKeys, heq]
    exact h
  · rw [NodupKeys, heq]
    refine List.Nodup.append h (List.nodup_singleton k) ?_
    intro a ha hb
    simp at hb
    subst hb
    exact hm ha

theorem dictGet_eq_none_of_not_mem {d : Dict} {k : String}
    (h : k ∉ dictKeys d) : dictGet d k = none := by
  induction d with
  | nil => simp [dictGet]
  | cons kv rest ih =>
    obtain ⟨k', v'⟩ := kv
    have h1 : ¬ k' = k := by
      intro hc
      exact h (by simp [dictKeys, hc])
    have h2 : k ∉ dictKeys rest := by
      intro hc
      refine h ?_
      simp [dictKeys]
      right
      simpa [dictKeys] using hc
    simp [dictGet, h1, ih h2]

theorem dictGet_eq_none_iff {d : Dict} {k : String} :
    dictGet d k = none ↔ ∀ v, (k, v) ∉ d := by
  induction d with
  | nil => simp [dictGet]
  | cons kv rest ih =>
    obtain ⟨k', v'⟩ := kv
    by_cases he : k' = k
    · subst he
      constructor
      · intro h
        simp [dictGet] at h
      · intro h
        exact ((h v') (List.mem_cons_self _ _)).elim
    · have he' : ¬ k = k' := fun hc => he hc.symm
      simp [dictGet, he, he', ih]

theorem dictGet_of_mem {d : Dict} {k : String} {v : Value}
    (hn : NodupKeys d) (hm : (k, v) ∈ d) : dictGet d k = some v := by
  induction d with
  | nil => simp at hm
  | cons kv rest ih =>
    obtain ⟨k', v'⟩ := kv
    have hn' : k' ∉ dictKeys rest ∧ (dictKeys rest).Nodup := List.nodup_cons.mp hn
    rcases List.mem_cons.mp hm with he | he
    · injection he with e1 e2
      subst e1
      subst e2
      simp [dictGet]
    · have hne : ¬ k' = k := by
        intro hc
        subst hc
        exact hn'.1 (by simpa [dictKeys] using List.mem_map_of_mem Prod.fst he)
      simp [dictGet, hne, ih hn'.2 he]

theorem dictGet_filter (p : String × Value → Bool) (d : Dict) (k : String)
    (h : NodupKeys d) :
    dictGet (d.filter p) k =
      match dictGet d k with
      | some v => if p (k, v) = true then some v else none
      | none => none := by
  induction d with
  | nil => simp [dictGet]
  | cons kv rest ih =>
    obtain ⟨k', v'⟩ := kv
    have h' : k' ∉ dictKeys rest ∧ (dictKeys rest).Nodup := List.nodup_cons.mp h
    have ihr := ih h'.2
    by_cases he : k' = k
    · subst he
      have hrest : dictGet rest k' = none := dictGet_eq_none_of_not_mem h'.1
      by_cases hp : p (k', v') = true
      · simp [List.filter_cons, hp, dictGet]
      · simp only [List.filter_cons, hp, Bool.false_eq_true, if_false]
        rw [ihr, hrest]
        simp [dictGet, hp]
    · by_cases hp : p (k', v') = true
      · simp [List.filter_cons, hp, dictGet, he, ihr]
      · simp only [List.filter_cons, hp, Bool.false_eq_true, if_false]
        rw [ihr]
        simp [dictGet, he]

theorem nodupKeys_filter (p : String × Value → Bool) {d : Dict}
    (h : NodupKeys d) : NodupKeys (d.filter p) := by
  have hs : List.Sublist ((d.filter p).map Prod.fst) (d.map Prod.fst) :=
    (List.filter_sublist d).map Prod.fst
  exact h.sublist hs

/-! ## Parameter-assembly lemmas -/

theorem lastPassing_eq_none_iff {d : Dict} {k : String} :
    lastPassing d k = none ↔ ∀ v, (k, v) ∈ d → passes v = false := by
  induction d with
  | nil => simp [lastPassing]
  | cons kv rest ih =>
    obtain ⟨k', v'⟩ := kv
    cases hl : lastPassing rest k with
    | some w =>
      simp only [lastPassing, hl]
      constructor
      · intro h
        exact absurd h (by simp)
      · intro h
        have h' : ∀ v, (k, v) ∈ rest → passes v = false :=
          fun v hv => h v (List.mem_cons_of_mem _ hv)
        rw [← ih] at h'
        simp [hl] at h'
    | none =>
      simp only [lastPassing, hl]
      by_cases hc : k' = k ∧ passes v' = true
      · rw [if_pos hc]
        constructor
        · intro h
          exact absurd h (by simp)
        · intro h
          obtain ⟨e, hp⟩ := hc
          subst e
          have := h v' (List.mem_cons_self _ _)
          rw [this] at hp
          cases hp
      · rw [if_neg hc]
        constructor
        · intro _ v hv
          rcases List.mem_cons.mp hv with he | he
          · injection he with e1 e2
            subst e2
            by_cases hk : k' = k
            · subst e1
              cases hpv : passes v with
              | false => rfl
              | true => exact absurd ⟨hk, hpv⟩ hc
            · exact absurd e1.symm hk
          · exact ih.mp hl v he
        · intro _
          rfl

theorem lastPassing_of_dictGet {d : Dict} {k : String} {v : Value}
    (hn : NodupKeys d) (hg : dictGet d k = some v) (hp : passes v = true) :
    lastPassing d k = some v := by
  induction d with
  | nil => simp [dictGet] at hg
  | cons kv rest ih =>
    obtain ⟨k', v'⟩ := kv
    have hn' : k' ∉ dictKeys rest ∧ (dictKeys rest).Nodup := List.nodup_cons.mp hn
    by_cases he : k' = k
    · subst he
      rw [show dictGet ((k', v') :: rest) k' = some v' from by simp [dictGet]] at hg
      injection hg with hg
      subst hg
      have hrest : lastPassing rest k' = none := by
        rw [lastPassing_eq_none_iff]
        intro w hw
        exact absurd (by simpa [dictKeys] using List.mem_map_of_mem Prod.fst hw) hn'.1
      simp [lastPassing, hrest, hp]
    · rw [show dictGet ((k', v') :: rest) k = dictGet rest k from by simp [dictGet, he]] at hg
      have := ih hn'.2 hg
      simp [lastPassing, this]

theorem lastPassing_none_of_not_passes {d : Dict} {k : String} {v : Value}
    (hn : NodupKeys d) (hg : dictGet d k = some v) (hp : passes v = false) :
    lastPassing d k = none := by
  rw [lastPassing_eq_none_iff]
  intro w hw
  have := dictGet_of_mem hn hw
  rw [hg] at this
  injection this with e
  rw [← e]
  exact hp

theorem lastPassing_none_of_get_none {d : Dict} {k : String}
    (hg : dictGet d k = none) : lastPassing d k = none := by
  rw [lastPassing_eq_none_iff]
  intro w hw
  exact absurd hw (dictGet_eq_none_iff.mp hg w)

theorem dictGet_addParams (init sp : Dict) (k : String) :
    dictGet (addParams init sp) k =
      match lastPassing sp k with
      | some v => some v
      | none => dictGet init k := by
  induction sp generalizing init with
  | nil => simp [addParams, lastPassing]
  | cons kv rest ih =>
    obtain ⟨k', v'⟩ := kv
    have hstep : addParams init ((k', v') :: rest)
        = addParams (if passes v' = true then dictSet init k' v' else init) rest := rfl
    rw [hstep, ih]
    cases hl : lastPassing rest k with
    | some w => simp [lastPassing, hl]
    | none =>
      simp only [lastPassing, hl]
      by_cases hc : k' = k ∧ passes v' = true
      · obtain ⟨e, hpv⟩ := hc
        subst e
        simp [hpv, dictGet_dictSet_self]
      · by_cases hpv : passes v' = true
        · have hne : k' ≠ k := fun e => hc ⟨e, hpv⟩
          simp [hpv, dictGet_dictSet_ne _ _ _ _ hne, hc, hne]
        · simp [hpv, hc]

theorem build_api_params_none (sp : Dict) (cnt : Int) :
    build_api_params sp none cnt
      = dictSet (addParams [("type", Value.str "models")] sp) "count" (Value.int cnt) := rfl

theorem build_api_params_some (sp : Dict) (c : String) (cnt : Int) :
    build_api_params sp (some c) cnt
      = if c ≠ "" then
          dictSet (dictSet (addParams [("type", Value.str "models")] sp) "count"
            (Value.int cnt)) "cursor" (Value.str c)
        else
          dictSet (addParams [("type", Value.str "models")] sp) "count" (Value.int cnt) := rfl

theorem dictGet_build_api_params (sp : Dict) (cur : Option String) (cnt : Int)
    (k : String) (h1 : k ≠ "count") (h2 : k ≠ "cursor") :
    dictGet (build_api_params sp cur cnt) k =
      match lastPassing sp k with
      | some v => some v
      | none => if k = "type" then some (Value.str "models") else none := by
  have base : dictGet (dictSet (addParams [("type", Value.str "models")] sp)
      "count" (Value.int cnt)) k
      = dictGet (addParams [("type", Value.str "models")] sp) k :=
    dictGet_dictSet_ne _ _ _ _ (Ne.symm h1)
  have final : dictGet (addParams [("type", Value.str "models")] sp) k =
      match lastPassing sp k with
      | some v => some v
      | none => if k = "type" then some (Value.str "models") else none := by
    rw [dictGet_addParams]
    cases lastPassing sp k with
    | some w => rfl
    | none =>
      by_cases hk : k = "type"
      · subst hk
        simp [dictGet]
      · have hk' : ¬ "type" = k := fun h => hk h.symm
        simp [dictGet, hk, hk']
  cases cur with
  | none => rw [build_api_params_none, base, final]
  | some c =>
    rw [build_api_params_some]
    by_cases he : c ≠ ""
    · rw [if_pos he, dictGet_dictSet_ne _ _ _ _ (Ne.symm h2), base, final]
    · rw [if_neg he, base, final]

theorem dictGet_build_count (sp : Dict) (cur : Option String) (cnt : Int) :
    dictGet (build_api_params sp cur cnt) "count" = some (Value.int cnt) := by
  cases cur with
  | none =>
    rw [build_api_params_none]
    exact dictGet_dictSet_self ..
  | some c =>
    rw [build_api_params_some]
    by_cases he : c ≠ ""
    · rw [if_pos he, dictGet_dictSet_ne _ _ _ _ (by decide)]
      exact dictGet_dictSet_self ..
    · rw [if_neg he]
      exact dictGet_dictSet_self ..

theorem dictGet_build_cursor_absent (sp : Dict) (cnt : Int)
    (h : lastPassing sp "cursor" = none) :
    dictGet (build_api_params sp none cnt) "cursor" = none ∧
    dictGet (build_api_params sp (some "") cnt) "cursor" = none := by
  have core : dictGet (dictSet (addParams [("type", Value.str "models")] sp)
      "count" (Value.int cnt)) "cursor" = none := by
    rw [dictGet_dictSet_ne _ _ _ _ (by decide), dictGet_addParams, h]
    simp [dictGet]
  constructor
  · rw [build_api_params_none]
    exact core
  · rw [build_api_params_some, if_neg (by simp)]
    exact core

/-! ## Manual-path lemmas -/

theorem manual_filter_excluded {input : Dict} {k : String} {v : Value}
    (hk : excluded_keys.contains k = true) : (k, v) ∉ manual_filter input := by
  intro hv
  have h := (List.mem_filter.mp hv).2
  simp only [hk] at h
  simp at h

theorem nodupKeys_manual (input : Dict) (h : NodupKeys input) :
    NodupKeys (manual_search_params input) := by
  simp only [manual_search_params]
  split
  · exact nodupKeys_dictSet _ _ (nodupKeys_filter _ h)
  · exact nodupKeys_filter _ h

theorem lastPassing_manual_cursor (input : Dict) :
    lastPassing (manual_search_params input) "cursor" = none := by
  rw [lastPassing_eq_none_iff]
  intro v hv
  exfalso
  simp only [manual_search_params] at hv
  split at hv
  · rcases mem_dictSet hv with he | he
    · have := congrArg Prod.fst he
      simp at this
    · exact manual_filter_excluded (by decide) he
  · exact manual_filter_excluded (by decide) hv

/-! ## Fallback-derivation lemmas -/

theorem splitWsGo_nil (cur : List Char) :
    splitWsGo cur [] = if cur.isEmpty then [] else [cur.reverse] := rfl

theorem splitWsGo_cons (cur : List Char) (x : Char) (xs : List Char) :
    splitWsGo cur (x :: xs) =
      if isPySpace x then
        (if cur.isEmpty then splitWsGo [] xs else cur.reverse :: splitWsGo [] xs)
      else splitWsGo (x :: cur) xs := rfl

theorem isPySpace_pyCharLower_eq_false {c : Char} (h : isPySpace c = false) :
    isPySpace (pyCharLower c) = false := by
  unfold pyCharLower
  cases hf : lowerTable.find? (fun p => p.1 = c) with
  | none => simpa using h
  | some p =>
    have hm : p ∈ lowerTable := List.mem_of_find?_eq_some hf
    have : ∀ q ∈ lowerTable, isPySpace q.2 = false := by decide
    simpa using this p hm

theorem splitWsGo_members_nonspace :
    ∀ (cs cur : List Char), (∀ c ∈ cur, isPySpace c = false) →
      ∀ w ∈ splitWsGo cur cs, ∀ c ∈ w, isPySpace c = false := by
  intro cs
  induction cs with
  | nil =>
    intro cur hcur w hw c hc
    rw [splitWsGo_nil] at hw
    split at hw
    · simp at hw
    · simp at hw
      subst hw
      exact hcur c (List.mem_reverse.mp hc)
  | cons x xs ih =>
    intro cur hcur w hw c hc
    rw [splitWsGo_cons] at hw
    cases hx : isPySpace x with
    | true =>
      rw [hx] at hw
      simp only [if_true] at hw
      split at hw
      · exact ih [] (by simp) w hw c hc
      · rcases List.mem_cons.mp hw with he | he
        · subst he
          exact hcur c (List.mem_reverse.mp hc)
        · exact ih [] (by simp) w he c hc
    | false =>
      rw [hx] at hw
      simp only [Bool.false_eq_true, if_false] at hw
      refine ih (x :: cur) ?_ w hw c hc
      intro d hd
      rcases List.mem_cons.mp hd with he | he
      · subst he
        exact hx
      · exact hcur d he

theorem splitWsGo_members_ne_nil :
    ∀ (cs cur : List Char), ∀ w ∈ splitWsGo cur cs, w ≠ [] := by
  intro cs
  induction cs with
  | nil =>
    intro cur w hw
    rw [splitWsGo_nil] at hw
    split at hw
    · simp at hw
    · rename_i hcur
      simp at hw
      subst hw
      simpa [List.isEmpty_iff] using hcur
  | cons x xs ih =>
    intro cur w hw
    rw [splitWsGo_cons] at hw
    cases hx : isPySpace x with
    | true =>
      rw [hx] at hw
      simp only [if_true] at hw
      split at hw
      · exact ih [] w hw
      · rename_i hcur
        rcases List.mem_cons.mp hw with he | he
        · subst he
          simpa [List.isEmpty_iff] using hcur
        · exact ih [] w he
    | false =>
      rw [hx] at hw
      simp only [Bool.false_eq_true, if_false] at hw
      exact ih (x :: cur) w hw

theorem splitWsGo_eq_nil_iff :
    ∀ (cs cur : List Char),
      splitWsGo cur cs = [] ↔ cur = [] ∧ ∀ c ∈ cs, isPySpace c = true := by
  intro cs
  induction cs with
  | nil =>
    intro cur
    rw [splitWsGo_nil]
    cases cur <;> simp
  | cons x xs ih =>
    intro cur
    rw [splitWsGo_cons]
    cases hx : isPySpace x with
    | true =>
      simp only [if_true]
      cases hcur : cur.isEmpty with
      | true =>
        rw [if_pos rfl]
        rw [List.isEmpty_iff] at hcur
        simp [ih, hcur, hx]
      | false =>
        rw [if_neg (by simp)]
        have : cur ≠ [] := by simpa [List.isEmpty_iff] using hcur
        simp [this]
    | false =>
      simp only [Bool.false_eq_true, if_false]
      rw [ih]
      simp [hx]

theorem splitWs_ne_nil {cs : List Char} {c : Char} (hm : c ∈ cs)
    (hc : isPySpace c = false) : splitWs cs ≠ [] := by
  rw [splitWs]
  intro he
  have := (splitWsGo_eq_nil_iff cs []).mp he
  rw [this.2 c hm] at hc
  cases hc

theorem replaceChar_eq_self {w : List Char}
    (h : ∀ c ∈ w, isPySpace c = false) : replaceChar ' ' '-' w = w := by
  unfold replaceChar
  induction w with
  | nil => rfl
  | cons c rest ih =>
    have hc : ¬ c = ' ' := by
      intro he
      subst he
      exact absurd (h ' ' (List.mem_cons_self _ _)) (by decide)
    simp only [List.map_cons, if_neg hc]
    rw [ih (fun d hd => h d (List.mem_cons_of_mem _ hd))]

theorem joinSpace_ne_nil {w : List Char} {ws : List (List Char)} (h : w ≠ []) :
    joinSpace (w :: ws) ≠ [] := by
  cases ws with
  | nil => simpa [joinSpace] using h
  | cons w2 ws' => simp [joinSpace, h]

/-! ## Output-record lemmas -/

theorem countP_isMeta_map_itemRec (l : List Value) :
    List.countP Record.isMeta (l.map Record.itemRec) = 0 := by
  induction l with
  | nil => rfl
  | cons v rest ih => simp [List.countP_cons, Record.isMeta, ih]

theorem filterMap_itemPayload_map_itemRec (l : List Value) :
    (l.map Record.itemRec).filterMap Record.itemPayload = l := by
  induction l with
  | nil => rfl
  | cons v rest ih => simp [List.filterMap_cons, Record.itemPayload, ih]

/-! ## URL-parsing lemmas -/

theorem takeUntil_append {c : Char} {xs : List Char} (ys : List Char)
    (h : c ∉ xs) : takeUntil c (xs ++ ys) = xs ++ takeUntil c ys := by
  induction xs with
  | nil => simp
  | cons x xs' ih =>
    have hx : ¬ x = c := fun he => h (by simp [he])
    have h' : c ∉ xs' := fun hm => h (List.mem_cons_of_mem _ hm)
    simp [takeUntil, hx, ih h']

theorem takeUntil_prefix (c : Char) (l : List Char) : (takeUntil c l) <+: l := by
  induction l with
  | nil => simp [takeUntil]
  | cons x xs ih =>
    by_cases hx : x = c
    · simp [takeUntil, hx]
    · simp only [takeUntil, if_neg hx]
      obtain ⟨r, hr⟩ := ih
      exact ⟨r, by simp [hr]⟩

theorem splitFirst_append {c : Char} {xs : List Char} (ys : List Char)
    (h : c ∉ xs) : splitFirst c (xs ++ c :: ys) = some (xs, ys) := by
  induction xs with
  | nil => simp [splitFirst]
  | cons x xs' ih =>
    have hx : ¬ x = c := fun he => h (by simp [he])
    have h' : c ∉ xs' := fun hm => h (List.mem_cons_of_mem _ hm)
    simp [splitFirst, hx, ih h']

theorem splitFirst_eq_some {c : Char} : ∀ {l a b : List Char},
    splitFirst c l = some (a, b) → l = a ++ c :: b := by
  intro l
  induction l with
  | nil =>
    intro a b h
    simp [splitFirst] at h
  | cons x xs ih =>
    intro a b h
    by_cases hx : x = c
    · rw [show splitFirst c (x :: xs) = some ([], xs) from by simp [splitFirst, hx]] at h
      injection h with h
      injection h with h1 h2
      subst hx
      rw [← h1, ← h2]
      simp
    · simp only [splitFirst, if_neg hx] at h
      cases hs : splitFirst c xs with
      | none =>
        rw [hs] at h
        simp at h
      | some p =>
        obtain ⟨a', b'⟩ := p
        rw [hs] at h
        simp only [Option.some.injEq] at h
        injection h with h1 h2
        rw [← h1, ← h2]
        simp [ih hs]

theorem splitOnChar_ne_nil (c : Char) (l : List Char) : splitOnChar c l ≠ [] := by
  induction l with
  | nil => simp [splitOnChar]
  | cons x xs ih =>
    by_cases hx : x = c
    · simp [splitOnChar, hx]
    · simp only [splitOnChar, if_neg hx]
      cases hs : splitOnChar c xs with
      | nil => simp
      | cons h t => simp

theorem splitOnChar_cons_self (c : Char) (ys : List Char) :
    splitOnChar c (c :: ys) = [] :: splitOnChar c ys := by
  simp [splitOnChar]

theorem splitOnChar_append {c : Char} {xs : List Char} (ys : List Char)
    {h : List Char} {t : List (List Char)}
    (hx : c ∉ xs) (he : splitOnChar c ys = h :: t) :
    splitOnChar c (xs ++ ys) = (xs ++ h) :: t := by
  induction xs with
  | nil => simpa using he
  | cons x xs' ih =>
    have hxc : ¬ x = c := fun hh => hx (by simp [hh])
    have hx' : c ∉ xs' := fun hm => hx (List.mem_cons_of_mem _ hm)
    have ihr := ih hx'
    simp only [List.cons_append, splitOnChar, if_neg hxc, List.append_eq]
    rw [ihr]

theorem splitOnChar_of_not_mem {c : Char} {xs : List Char} (hx : c ∉ xs) :
    splitOnChar c xs = [xs] := by
  have he : splitOnChar c ([] : List Char) = [] :: [] := by simp [splitOnChar]
  have := splitOnChar_append [] hx he
  simpa using this

theorem splitOnChar_head_prefix {c : Char} : ∀ {l h : List Char} {t : List (List Char)},
    splitOnChar c l = h :: t → h <+: l := by
  intro l
  induction l with
  | nil =>
    intro h t he
    simp [splitOnChar] at he
    simp [← he.1]
  | cons x xs ih =>
    intro h t he
    by_cases hx : x = c
    · subst hx
      rw [splitOnChar_cons_self] at he
      injection he with e1 e2
      rw [← e1]
      simp
    · simp only [splitOnChar, if_neg hx] at he
      cases hs : splitOnChar c xs with
      | nil => exact absurd hs (splitOnChar_ne_nil c xs)
      | cons h' t' =>
        rw [hs] at he
        injection he with e1 e2
        obtain ⟨r, hr⟩ := ih hs
        rw [← e1]
        exact ⟨r, by simp [hr]⟩

theorem infix_of_mem_splitOnChar {c : Char} : ∀ {l f : List Char},
    f ∈ splitOnChar c l → f <:+: l := by
  intro l
  induction l with
  | nil =>
    intro f hf
    simp [splitOnChar] at hf
    simp [hf]
  | cons x xs ih =>
    intro f hf
    have hxs : xs <:+: x :: xs := (List.suffix_cons x xs).isInfix
    by_cases hx : x = c
    · subst hx
      rw [splitOnChar_cons_self] at hf
      rcases List.mem_cons.mp hf with he | he
      · subst he
        exact List.nil_infix
      · exact (ih he).trans hxs
    · simp only [splitOnChar, if_neg hx] at hf
      cases hs : splitOnChar c xs with
      | nil => exact absurd hs (splitOnChar_ne_nil c xs)
      | cons h' t' =>
        rw [hs] at hf
        rcases List.mem_cons.mp hf with he | he
        · subst he
          obtain ⟨r, hr⟩ := splitOnChar_head_prefix hs
          exact ⟨[], r, by simp [hr]⟩
        · have hm : f ∈ splitOnChar c xs := by
            rw [hs]
            exact List.mem_cons_of_mem _ he
          exact (ih hm).trans hxs

theorem plusToSpace_of_not_mem {cs : List Char} (h : '+' ∉ cs) :
    plusToSpace cs = cs := by
  unfold plusToSpace
  induction cs with
  | nil => rfl
  | cons c rest ih =>
    have hc : ¬ c = '+' := fun he => h (by simp [he])
    simp only [List.map_cons, if_neg hc]
    rw [ih (fun hm => h (List.mem_cons_of_mem _ hm))]

theorem not_mem_plusToSpace {cs : List Char} (h : '%' ∉ cs) :
    '%' ∉ plusToSpace cs := by
  unfold plusToSpace
  intro hm
  rcases List.mem_map.mp hm with ⟨c, hc, he⟩
  by_cases hp : c = '+'
  · rw [if_pos hp] at he
    exact absurd he (by decide)
  · rw [if_neg hp] at he
    subst he
    exact h hc

theorem plusToSpace_eq_of_no_space : ∀ {xs ys : List Char}, ' ' ∉ ys →
    plusToSpace xs = ys → xs = ys := by
  intro xs
  induction xs with
  | nil =>
    intro ys _ h
    simpa [plusToSpace] using h
  | cons x xs' ih =>
    intro ys hy h
    cases ys with
    | nil => simp [plusToSpace] at h
    | cons y ys' =>
      simp only [plusToSpace, List.map_cons, List.cons.injEq] at h
      obtain ⟨h1, h2⟩ := h
      have hy1 : ¬ y = ' ' := fun he => hy (by simp [he])
      have hx : x = y := by
        by_cases hp : x = '+'
        · rw [if_pos hp] at h1
          exact absurd h1.symm hy1
        · rwa [if_neg hp] at h1
      have hxs : xs' = ys' :=
        ih (fun hm => hy (List.mem_cons_of_mem _ hm)) h2
      simp [hx, hxs]

theorem percentDecodeFuel_of_not_mem : ∀ (fuel : Nat) {cs : List Char},
    '%' ∉ cs → percentDecodeFuel fuel cs = cs := by
  intro fuel
  induction fuel with
  | zero =>
    intro cs _
    rfl
  | succ n ih =>
    intro cs h
    cases cs with
    | nil => rfl
    | cons c rest =>
      have hc : ¬ c = '%' := fun he => h (by simp [he])
      simp only [percentDecodeFuel, if_neg hc]
      rw [ih (fun hm => h (List.mem_cons_of_mem _ hm))]

theorem percentDecode_of_not_mem {cs : List Char} (h : '%' ∉ cs) :
    percentDecode cs = cs :=
  percentDecodeFuel_of_not_mem _ h

theorem decodeComponent_of_clean {cs : List Char} (hp : '%' ∉ cs)
    (hl : '+' ∉ cs) : decodeComponent cs = cs := by
  unfold decodeComponent
  rw [plusToSpace_of_not_mem hl, percentDecode_of_not_mem hp]

theorem decodeComponent_eq_key {n key : List Char} (hp : '%' ∉ n)
    (hk : ' ' ∉ key) (h : decodeComponent n = key) : n = key := by
  unfold decodeComponent at h
  rw [percentDecode_of_not_mem (not_mem_plusToSpace hp)] at h
  exact plusToSpace_eq_of_no_space hk h

theorem firstValueFor_nil (key : List Char) : firstValueFor key [] = none := rfl

theorem firstValueFor_cons (key f : List Char) (fs : List (List Char)) :
    firstValueFor key (f :: fs) =
      if f.isEmpty then firstValueFor key fs
      else
        match splitFirst '=' f with
        | none => firstValueFor key fs
        | some (n, v) =>
          if v.isEmpty then firstValueFor key fs
          else if decodeComponent n = key then some (decodeComponent v)
          else firstValueFor key fs := rfl

theorem firstValueFor_some {key : List Char} : ∀ {fs : List (List Char)} {v : List Char},
    firstValueFor key fs = some v →
    ∃ f ∈ fs, ∃ n w, splitFirst '=' f = some (n, w) ∧
      decodeComponent n = key ∧ decodeComponent w = v := by
  intro fs
  induction fs with
  | nil =>
    intro v h
    simp [firstValueFor] at h
  | cons f fs' ih =>
    intro v h
    rw [firstValueFor_cons] at h
    split at h
    · obtain ⟨g, hg, rest⟩ := ih h
      exact ⟨g, List.mem_cons_of_mem _ hg, rest⟩
    · split at h
      · obtain ⟨g, hg, rest⟩ := ih h
        exact ⟨g, List.mem_cons_of_mem _ hg, rest⟩
      · rename_i n w heq
        split at h
        · obtain ⟨g, hg, rest⟩ := ih h
          exact ⟨g, List.mem_cons_of_mem _ hg, rest⟩
        · split at h
          · rename_i hd
            injection h with hv
            exact ⟨f, List.mem_cons_self _ _, n, w, heq, hd, hv⟩
          · obtain ⟨g, hg, rest⟩ := ih h
            exact ⟨g, List.mem_cons_of_mem _ hg, rest⟩

theorem firstValueFor_skip {key f : List Char} (fs : List (List Char))
    (hk : ' ' ∉ key) (hp : '%' ∉ f) (hni : ¬ key <:+: f) :
    firstValueFor key (f :: fs) = firstValueFor key fs := by
  rw [firstValueFor_cons]
  by_cases hfe : f.isEmpty = true
  · rw [if_pos hfe]
  · rw [if_neg hfe]
    cases hsp : splitFirst '=' f with
    | none => rfl
    | some p =>
      obtain ⟨n, w⟩ := p
      show (if w.isEmpty = true then firstValueFor key fs
            else if decodeComponent n = key then some (decodeComponent w)
            else firstValueFor key fs) = firstValueFor key fs
      by_cases hwe : w.isEmpty = true
      · rw [if_pos hwe]
      · rw [if_neg hwe]
        have hnd : ¬ decodeComponent n = key := by
          intro hd
          have hdecomp := splitFirst_eq_some hsp
          have hnp : '%' ∉ n := by
            intro hm
            apply hp
            rw [hdecomp]
            exact List.mem_append.mpr (Or.inl hm)
          have hnk := decodeComponent_eq_key hnp hk hd
          apply hni
          rw [hdecomp, ← hnk]
          exact ⟨[], '=' :: w, by simp⟩
        rw [if_neg hnd]

theorem firstValueFor_join {key : List Char} (hk : ' ' ∉ key) :
    ∀ (fields : List (List Char)) (rest : List Char),
      (∀ f ∈ fields, '&' ∉ f ∧ '%' ∉ f ∧ ¬ key <:+: f) →
      firstValueFor key (splitOnChar '&' (joinFieldsAmp fields ++ rest))
        = firstValueFor key (splitOnChar '&' rest) := by
  intro fields
  induction fields with
  | nil =>
    intro rest _
    simp [joinFieldsAmp]
  | cons f fields' ih =>
    intro rest hf
    have hf0 := hf f (List.mem_cons_self _ _)
    have hjoin : joinFieldsAmp (f :: fields') ++ rest
        = f ++ '&' :: (joinFieldsAmp fields' ++ rest) := by
      simp [joinFieldsAmp]
    rw [hjoin,
      splitOnChar_append ('&' :: (joinFieldsAmp fields' ++ rest)) hf0.1
        (splitOnChar_cons_self '&' (joinFieldsAmp fields' ++ rest)),
      List.append_nil,
      firstValueFor_skip _ hk hf0.2.1 hf0.2.2]
    exact ih rest (fun g hg => hf g (List.mem_cons_of_mem _ hg))

theorem firstValueFor_hit {key x : List Char} (fs : List (List Char))
    (hkeq : '=' ∉ key) (hkp : '%' ∉ key) (hkpl : '+' ∉ key)
    (hx : x ≠ []) (hxp : '%' ∉ x) (hxpl : '+' ∉ x) :
    firstValueFor key ((key ++ '=' :: x) :: fs) = some x := by
  rw [firstValueFor_cons]
  have hne : ¬ (key ++ '=' :: x).isEmpty = true := by
    simp [List.isEmpty_iff]
  rw [if_neg hne, splitFirst_append _ hkeq]
  show (if x.isEmpty = true then firstValueFor key fs
        else if decodeComponent key = key then some (decodeComponent x)
        else firstValueFor key fs) = some x
  rw [if_neg (by simp [List.isEmpty_iff, hx]),
    if_pos (decodeComponent_of_clean hkp hkpl),
    decodeComponent_of_clean hxp hxpl]

theorem not_mem_joinFieldsAmp {c : Char} {fields : List (List Char)}
    (hc : c ≠ '&') (h : ∀ f ∈ fields, c ∉ f) : c ∉ joinFieldsAmp fields := by
  induction fields with
  | nil => simp [joinFieldsAmp]
  | cons f fields' ih =>
    intro hm
    have : joinFieldsAmp (f :: fields') = f ++ '&' :: joinFieldsAmp fields' := by
      simp [joinFieldsAmp]
    rw [this] at hm
    rcases List.mem_append.mp hm with hm | hm
    · exact h f (List.mem_cons_self _ _) hm
    · rcases List.mem_cons.mp hm with hm | hm
      · exact hc hm
      · exact ih (fun g hg => h g (List.mem_cons_of_mem _ hg)) hm

theorem parseCursorChars_eq (cs : List Char) :
    parseCursorChars cs =
      if cs.isEmpty then none
      else
        match splitFirst '?' (takeUntil '#' cs) with
        | none => none
        | some pr => firstValueFor ("cursor".toList) (splitOnChar '&' pr.2) := by
  unfold parseCursorChars
  cases cs.isEmpty
  · simp only [Bool.false_eq_true, if_false]
    cases hsp : splitFirst '?' (takeUntil '#' cs) with
    | none => rfl
    | some pr =>
      obtain ⟨pre, query⟩ := pr
      rfl
  · simp

theorem parseCursorChars_extracts
    (base : List Char) (fields : List (List Char)) (x suffix : List Char)
    (hb1 : '?' ∉ base) (hb2 : '#' ∉ base)
    (hf : ∀ f ∈ fields, '&' ∉ f ∧ '#' ∉ f ∧ '%' ∉ f ∧ ¬ ("cursor".toList <:+: f))
    (hx0 : x ≠ []) (hx1 : '&' ∉ x) (hx2 : '#' ∉ x) (hx3 : '%' ∉ x) (hx4 : '+' ∉ x)
    (hsuf : suffix = [] ∨ (∃ t, suffix = '&' :: t) ∨ (∃ t, suffix = '#' :: t)) :
    parseCursorChars
      (base ++ '?' :: (joinFieldsAmp fields ++ ("cursor=".toList ++ (x ++ suffix))))
      = some x := by
  obtain ⟨suf', hsuf', htk⟩ :
      ∃ suf', (suf' = [] ∨ ∃ t', suf' = '&' :: t') ∧ takeUntil '#' suffix = suf' := by
    rcases hsuf with h | ⟨t, h⟩ | ⟨t, h⟩
    · exact ⟨[], Or.inl rfl, by simp [h, takeUntil]⟩
    · refine ⟨'&' :: takeUntil '#' t, Or.inr ⟨_, rfl⟩, ?_⟩
      rw [h]
      simp [takeUntil]
    · refine ⟨[], Or.inl rfl, ?_⟩
      rw [h]
      simp [takeUntil]
  have hjoinh : '#' ∉ joinFieldsAmp fields :=
    not_mem_joinFieldsAmp (by decide) (fun f hfm => (hf f hfm).2.1)
  have hceh : '#' ∉ "cursor=".toList := by decide
  have htake : takeUntil '#'
        (base ++ '?' :: (joinFieldsAmp fields ++ ("cursor=".toList ++ (x ++ suffix))))
      = base ++ '?' :: (joinFieldsAmp fields ++ ("cursor=".toList ++ (x ++ suf'))) := by
    rw [takeUntil_append _ hb2]
    congr 1
    rw [show takeUntil '#'
          ('?' :: (joinFieldsAmp fields ++ ("cursor=".toList ++ (x ++ suffix))))
        = '?' :: takeUntil '#'
            (joinFieldsAmp fields ++ ("cursor=".toList ++ (x ++ suffix))) from by
      simp [takeUntil]]
    congr 1
    rw [takeUntil_append _ hjoinh]
    congr 1
    rw [takeUntil_append _ hceh]
    congr 1
    rw [takeUntil_append _ hx2]
    congr 1
  rw [parseCursorChars_eq]
  have hne : ¬ ((base ++ '?' ::
      (joinFieldsAmp fields ++ ("cursor=".toList ++ (x ++ suffix)))).isEmpty = true) := by
    simp [List.isEmpty_iff]
  rw [if_neg hne, htake, splitFirst_append _ hb1]
  show firstValueFor ("cursor".toList)
      (splitOnChar '&' (joinFieldsAmp fields ++ ("cursor=".toList ++ (x ++ suf'))))
      = some x
  rw [firstValueFor_join (by decide) fields _
    (fun f hfm => ⟨(hf f hfm).1, (hf f hfm).2.2.1, (hf f hfm).2.2.2⟩)]
  have hkey : ("cursor=".toList ++ (x ++ suf'))
      = ("cursor".toList ++ '=' :: x) ++ suf' := by
    simp
  rw [hkey]
  have hamp : '&' ∉ ("cursor".toList ++ '=' :: x) := by
    intro hm
    rcases List.mem_append.mp hm with hm | hm
    · exact absurd hm (by decide)
    · rcases List.mem_cons.mp hm with hm | hm
      · exact absurd hm (by decide)
      · exact hx1 hm
  rcases hsuf' with h | ⟨t', h⟩
  · subst h
    rw [List.append_nil, splitOnChar_of_not_mem hamp]
    exact firstValueFor_hit [] (by decide) (by decide) (by decide) hx0 hx3 hx4
  · subst h
    rw [splitOnChar_append ('&' :: t') hamp (splitOnChar_cons_self '&' t'),
      List.append_nil]
    exact firstValueFor_hit _ (by decide) (by decide) (by decide) hx0 hx3 hx4

theorem parseCursorChars_none {cs : List Char}
    (h1 : ¬ ("cursor".toList <:+: cs)) (h2 : '%' ∉ cs) :
    parseCursorChars cs = none := by
  rw [parseCursorChars_eq]
  by_cases he : cs.isEmpty = true
  · rw [if_pos he]
  · rw [if_neg he]
    cases hsp : splitFirst '?' (takeUntil '#' cs) with
    | none => rfl
    | some pr =>
      obtain ⟨pre, query⟩ := pr
      show firstValueFor ("cursor".toList) (splitOnChar '&' query) = none
      cases hfv : firstValueFor ("cursor".toList) (splitOnChar '&' query) with
      | none => rfl
      | some v =>
        exfalso
        obtain ⟨f, hfm, n, w, hsplit, hdec, _⟩ := firstValueFor_some hfv
        have hq : query <:+: cs := by
          have hdecomp := splitFirst_eq_some hsp
          have hq1 : query <:+ takeUntil '#' cs := by
            rw [hdecomp]
            exact ⟨pre ++ ['?'], by simp⟩
          have hq2 : takeUntil '#' cs <+: cs := takeUntil_prefix '#' cs
          exact hq1.isInfix.trans hq2.isInfix
        have hfq : f <:+: query := infix_of_mem_splitOnChar hfm
        have hnf : n <+: f := by
          rw [splitFirst_eq_some hsplit]
          exact ⟨'=' :: w, rfl⟩
        have hnincs : n <:+: cs := (hnf.isInfix.trans hfq).trans hq
        have hnp : '%' ∉ n := fun hm => h2 (hnincs.sublist.subset hm)
        have hnk := decodeComponent_eq_key hnp (by decide) hdec
        apply h1
        rw [← hnk]
        exact hnincs

/-! ## Claim theorems -/

/-- C1 (counterexample): the Parameter Compiler does not fail on
`max_face_count < min_face_count` — the pipeline issues the request to the
remote endpoint, and the request carries the contradictory pair verbatim
(here `min_face_count = 10`, `max_face_count = 5`). -/
theorem c1_counterexample :
    dictGet (run_pipeline
        [("min_face_count", Value.int 10), ("max_face_count", Value.int 5)]
        NluOutcome.noKey (ApiOutcome.success {})).request "min_face_count"
      = some (Value.int 10) ∧
    dictGet (run_pipeline
        [("min_face_count", Value.int 10), ("max_face_count", Value.int 5)]
        NluOutcome.noKey (ApiOutcome.success {})).request "max_face_count"
      = some (Value.int 5) ∧
    (5 : Int) < 10 :=
  ⟨rfl, rfl, by decide⟩

/-- C1 (amended): no numeric-range validation exists.  For every ParameterSet
in which `min_face_count` and `max_face_count` are both present — even with
`max_face_count < min_face_count` — compilation succeeds and both values
appear verbatim in the wire-ready parameter mapping. -/
theorem c1_no_range_validation (sp : Dict) (cur : Option String) (cnt : Int)
    (a b : Int) (hn : NodupKeys sp)
    (hmin : dictGet sp "min_face_count" = some (Value.int a))
    (hmax : dictGet sp "max_face_count" = some (Value.int b))
    (_hlt : b < a) :
    dictGet (build_api_params sp cur cnt) "min_face_count" = some (Value.int a) ∧
    dictGet (build_api_params sp cur cnt) "max_face_count" = some (Value.int b) := by
  constructor
  · rw [dictGet_build_api_params sp cur cnt _ (by decide) (by decide),
      lastPassing_of_dictGet hn hmin rfl]
  · rw [dictGet_build_api_params sp cur cnt _ (by decide) (by decide),
      lastPassing_of_dictGet hn hmax rfl]

/-- C1 (witness): the amended claim at the concrete contradictory input. -/
theorem c1_no_range_validation_witness :
    dictGet (build_api_params
        [("min_face_count", Value.int 10), ("max_face_count", Value.int 5)] none 24)
      "min_face_count" = some (Value.int 10) ∧
    dictGet (build_api_params
        [("min_face_count", Value.int 10), ("max_face_count", Value.int 5)] none 24)
      "max_face_count" = some (Value.int 5) :=
  c1_no_range_validation _ none 24 10 5 (by unfold NodupKeys; decide) rfl rfl
    (by decide)

/-- C2 (counterexample): `type=models` is not always preserved — a manual
input carrying its own non-empty `type` field overwrites the fixed
discriminator in the compiled mapping. -/
theorem c2_type_models_counterexample :
    dictGet (build_api_params
        (manual_search_params [("type", Value.str "collections")]) none 24) "type"
      = some (Value.str "collections") ∧
    Value.str "collections" ≠ Value.str "models" :=
  ⟨rfl, by simp⟩

/-- C2 (amended): the compiled parameter mapping always contains the key
`type`; its value is `"models"` whenever the search parameters carry no
non-empty `type` entry of their own (a caller-supplied non-empty `type`
overrides it). -/
theorem c2_type_models :
    (∀ (sp : Dict) (cur : Option String) (cnt : Int),
      ∃ v, dictGet (build_api_params sp cur cnt) "type" = some v) ∧
    (∀ (sp : Dict) (cur : Option String) (cnt : Int),
      (∀ v, ("type", v) ∈ sp → passes v = false) →
      dictGet (build_api_params sp cur cnt) "type" = some (Value.str "models")) := by
  constructor
  · intro sp cur cnt
    rw [dictGet_build_api_params sp cur cnt "type" (by decide) (by decide)]
    cases lastPassing sp "type" with
    | some w => exact ⟨w, rfl⟩
    | none => exact ⟨Value.str "models", by simp⟩
  · intro sp cur cnt h
    rw [dictGet_build_api_params sp cur cnt "type" (by decide) (by decide),
      lastPassing_eq_none_iff.mpr h]
    simp

/-- C2 (witness): the amended claim at a concrete input without a `type`
field. -/
theorem c2_type_models_witness :
    dictGet (build_api_params [("q", Value.str "tree")] none 24) "type"
      = some (Value.str "models") :=
  c2_type_models.2 [("q", Value.str "tree")] none 24 (by
    intro v hv
    simp at hv)

/-- C3 (counterexample): the Intent Router does not trim whitespace — with
the AI flag set and a whitespace-only free-text query (non-empty, empty
after trimming), it selects the AI path, not the manual path. -/
theorem c3_route_decision_counterexample :
    route_decision true " " = "ai_processing" ∧ (" " : String) ≠ "" ∧
      (∀ c ∈ (" " : String).toList, isPySpace c = true) :=
  ⟨rfl, by decide, by decide⟩

/-- C3 (amended): the Intent Router is total and deterministic; it selects
the AI path if and only if the AI flag is set AND the free-text query is
non-empty — without trimming, so a whitespace-only query also selects the
AI path. -/
theorem c3_route_decision_total :
    (∀ (u : Bool) (q : String),
      route_decision u q = "ai_processing" ∨
        route_decision u q = "manual_processing") ∧
    (∀ (u : Bool) (q : String),
      route_decision u q = "ai_processing" ↔ (u = true ∧ q ≠ "")) := by
  constructor
  · intro u q
    unfold route_decision
    split
    · exact Or.inl rfl
    · exact Or.inr rfl
  · intro u q
    unfold route_decision
    by_cases hu : u = true
    · subst hu
      by_cases hq : q = ""
      · subst hq
        simp
      · simp [hq]
    · have hu' : u = false := by
        cases u
        · rfl
        · exact absurd rfl hu
      subst hu'
      simp

/-- C10: an empty-string (or absent) pagination cursor is treated as the
first page — the compiled query carries no `cursor` parameter — while the
`count` parameter is always present.  Stated for any parameter set without
its own `cursor` entry, for the manual path (which always excludes
`cursor`), and for `count` unconditionally. -/
theorem c10_empty_cursor :
    (∀ (sp : Dict) (cnt : Int), (∀ v, ("cursor", v) ∈ sp → passes v = false) →
      dictGet (build_api_params sp (some "") cnt) "cursor" = none ∧
      dictGet (build_api_params sp none cnt) "cursor" = none) ∧
    (∀ (input : Dict) (cnt : Int),
      dictGet (build_api_params (manual_search_params input) (some "") cnt)
        "cursor" = none) ∧
    (∀ (sp : Dict) (cur : Option String) (cnt : Int),
      dictGet (build_api_params sp cur cnt) "count" = some (Value.int cnt)) := by
  refine ⟨?_, ?_, ?_⟩
  · intro sp cnt h
    have hlp : lastPassing sp "cursor" = none := lastPassing_eq_none_iff.mpr h
    have hcore := dictGet_build_cursor_absent sp cnt hlp
    exact ⟨hcore.2, hcore.1⟩
  · intro input cnt
    exact (dictGet_build_cursor_absent _ cnt (lastPassing_manual_cursor input)).2
  · intro sp cur cnt
    exact dictGet_build_count sp cur cnt

/-- C10 (witness): the claim at a concrete input with an empty-string
cursor. -/
theorem c10_empty_cursor_witness :
    dictGet (build_api_params [("q", Value.str "tree")] (some "") 24) "cursor" = none ∧
    dictGet (build_api_params [("q", Value.str "tree")] (some "") 24) "count"
      = some (Value.int 24) :=
  ⟨(c10_empty_cursor.1 [("q", Value.str "tree")] 24 (by
      intro v hv
      simp at hv)).1,
   c10_empty_cursor.2.2 [("q", Value.str "tree")] (some "") 24⟩

theorem manual_downloadable_default {input : Dict} (hn : NodupKeys input)
    (h : dictGet input "downloadable" = none ∨
         dictGet input "downloadable" = some Value.null ∨
         dictGet input "downloadable" = some (Value.str "")) :
    dictGet (manual_search_params input) "downloadable" = some (Value.bool true) := by
  have hgetf := dictGet_filter
    (fun kv => !excluded_keys.contains kv.1 && passes kv.2) input "downloadable" hn
  have hfil : dictGet (manual_filter input) "downloadable" = none := by
    unfold manual_filter
    rcases h with h | h | h <;> rw [hgetf, h] <;> rfl
  simp only [manual_search_params]
  rw [hfil]
  exact dictGet_dictSet_self ..

theorem manual_downloadable_bool {input : Dict} (hn : NodupKeys input) (b : Bool)
    (h : dictGet input "downloadable" = some (Value.bool b)) :
    dictGet (manual_search_params input) "downloadable" = some (Value.bool b) := by
  have hgetf := dictGet_filter
    (fun kv => !excluded_keys.contains kv.1 && passes kv.2) input "downloadable" hn
  have hfil : dictGet (manual_filter input) "downloadable" = some (Value.bool b) := by
    unfold manual_filter
    rw [hgetf, h]
    rfl
  simp only [manual_search_params]
  rw [hfil]
  exact hfil

theorem ai_postprocess_downloadable_default {cand : Dict} (hn : NodupKeys cand)
    (h : dictGet cand "downloadable" = none ∨
         dictGet cand "downloadable" = some Value.null) :
    dictGet (ai_result_postprocess cand) "downloadable" = some (Value.bool true)
      ∧ NodupKeys (ai_result_postprocess cand) := by
  unfold ai_result_postprocess
  rcases h with h | h <;> rw [h] <;>
    exact ⟨dictGet_dictSet_self .., nodupKeys_dictSet _ _ hn⟩

theorem ai_postprocess_downloadable_bool {cand : Dict} (hn : NodupKeys cand) (b : Bool)
    (h : dictGet cand "downloadable" = some (Value.bool b)) :
    dictGet (ai_result_postprocess cand) "downloadable" = some (Value.bool b)
      ∧ NodupKeys (ai_result_postprocess cand) := by
  unfold ai_result_postprocess
  rw [h]
  exact ⟨h, hn⟩

/-- C4: on both paths, `downloadable` is `true` in the compiled output
whenever the caller / the AI candidate did not explicitly set it to `false`
(absent, `None`, or — on the manual path — dropped empty string), and an
explicit `false` is preserved.  The AI fallback always sets it to `true`. -/
theorem c4_downloadable_default :
    (∀ (input : Dict) (cur : Option String) (cnt : Int),
      NodupKeys input →
      (∀ v, dictGet input "downloadable" = some v →
        v = Value.null ∨ v = Value.str "" ∨ ∃ b, v = Value.bool b) →
      ((dictGet input "downloadable" ≠ some (Value.bool false) →
        dictGet (build_api_params (manual_search_params input) cur cnt)
          "downloadable" = some (Value.bool true)) ∧
       (dictGet input "downloadable" = some (Value.bool false) →
        dictGet (build_api_params (manual_search_params input) cur cnt)
          "downloadable" = some (Value.bool false)))) ∧
    (∀ (cand : Dict) (cur : Option String) (cnt : Int),
      NodupKeys cand →
      (∀ v, dictGet cand "downloadable" = some v →
        v = Value.null ∨ ∃ b, v = Value.bool b) →
      ((dictGet cand "downloadable" ≠ some (Value.bool false) →
        dictGet (build_api_params (ai_result_postprocess cand) cur cnt)
          "downloadable" = some (Value.bool true)) ∧
       (dictGet cand "downloadable" = some (Value.bool false) →
        dictGet (build_api_params (ai_result_postprocess cand) cur cnt)
          "downloadable" = some (Value.bool false)))) ∧
    (∀ (nq : String) (cur : Option String) (cnt : Int),
      dictGet (build_api_params (fallback_params nq) cur cnt) "downloadable"
        = some (Value.bool true)) := by
  refine ⟨?_, ?_, ?_⟩
  · intro input cur cnt hn htyped
    have hnodup := nodupKeys_manual input hn
    have hbuild : ∀ b : Bool,
        dictGet (manual_search_params input) "downloadable" = some (Value.bool b) →
        dictGet (build_api_params (manual_search_params input) cur cnt)
          "downloadable" = some (Value.bool b) := by
      intro b hb
      rw [dictGet_build_api_params _ cur cnt _ (by decide) (by decide),
        lastPassing_of_dictGet hnodup hb rfl]
    constructor
    · intro hne
      cases hg : dictGet input "downloadable" with
      | none => exact hbuild true (manual_downloadable_default hn (Or.inl hg))
      | some v =>
        rcases htyped v hg with hv | hv | ⟨b, hv⟩
        · subst hv
          exact hbuild true (manual_downloadable_default hn (Or.inr (Or.inl hg)))
        · subst hv
          exact hbuild true (manual_downloadable_default hn (Or.inr (Or.inr hg)))
        · subst hv
          cases b with
          | true => exact hbuild true (manual_downloadable_bool hn true hg)
          | false => exact absurd hg hne
    · intro hfalse
      exact hbuild false (manual_downloadable_bool hn false hfalse)
  · intro cand cur cnt hn htyped
    have hbuild : ∀ (b : Bool),
        dictGet (ai_result_postprocess cand) "downloadable" = some (Value.bool b) →
        NodupKeys (ai_result_postprocess cand) →
        dictGet (build_api_params (ai_result_postprocess cand) cur cnt)
          "downloadable" = some (Value.bool b) := by
      intro b hb hnodup
      rw [dictGet_build_api_params _ cur cnt _ (by decide) (by decide),
        lastPassing_of_dictGet hnodup hb rfl]
    constructor
    · intro hne
      cases hg : dictGet cand "downloadable" with
      | none =>
        have hpost := ai_postprocess_downloadable_default hn (Or.inl hg)
        exact hbuild true hpost.1 hpost.2
      | some v =>
        rcases htyped v hg with hv | ⟨b, hv⟩
        · subst hv
          have hpost := ai_postprocess_downloadable_default hn (Or.inr hg)
          exact hbuild true hpost.1 hpost.2
        · subst hv
          cases b with
          | true =>
            have hpost := ai_postprocess_downloadable_bool hn true hg
            exact hbuild true hpost.1 hpost.2
          | false => exact absurd hg hne
    · intro hfalse
      have hpost := ai_postprocess_downloadable_bool hn false hfalse
      exact hbuild false hpost.1 hpost.2
  · intro nq cur cnt
    have hlp : lastPassing (fallback_params nq) "downloadable"
        = some (Value.bool true) := by
      simp [fallback_params, lastPassing, passes]
    rw [dictGet_build_api_params _ cur cnt _ (by decide) (by decide), hlp]

/-- C4 (witness): the claim at concrete inputs — manual input without
`downloadable` (defaults to true), manual explicit `false` (preserved), an
AI candidate without `downloadable`, and the fallback derivation. -/
theorem c4_downloadable_witness :
    dictGet (build_api_params
        (manual_search_params [("tags", Value.arr [Value.str "low-poly"])]) none 24)
      "downloadable" = some (Value.bool true) ∧
    dictGet (build_api_params
        (manual_search_params [("downloadable", Value.bool false)]) none 24)
      "downloadable" = some (Value.bool false) ∧
    dictGet (build_api_params
        (ai_result_postprocess [("q", Value.str "tree")]) none 24)
      "downloadable" = some (Value.bool true) ∧
    dictGet (build_api_params (fallback_params "sci fi robot") none 24)
      "downloadable" = some (Value.bool true) :=
  ⟨(c4_downloadable_default.1 [("tags", Value.arr [Value.str "low-poly"])] none 24
      (by unfold NodupKeys; decide)
      (by intro v hv; simp [dictGet] at hv)).1
      (by intro hv; simp [dictGet] at hv),
   (c4_downloadable_default.1 [("downloadable", Value.bool false)] none 24
      (by unfold NodupKeys; decide)
      (by intro v hv; simp [dictGet] at hv; exact Or.inr (Or.inr ⟨false, hv.symm⟩))).2
      rfl,
   (c4_downloadable_default.2.1 [("q", Value.str "tree")] none 24
      (by unfold NodupKeys; decide)
      (by intro v hv; simp [dictGet] at hv)).1
      (by intro hv; simp [dictGet] at hv),
   c4_downloadable_default.2.2 "sci fi robot" none 24⟩

/-- C7 (counterexample): no category-enumeration filtering happens in the
adapter — a candidate category slug outside the 18-value enumeration reaches
the compiled query unchanged. -/
theorem c7_counterexample :
    dictGet (build_api_params
        (ai_result_postprocess
          [("q", Value.str "robot"),
           ("categories", Value.arr [Value.str "totally-bogus-slug"]),
           ("downloadable", Value.bool true)]) none 24) "categories"
      = some (Value.arr [Value.str "totally-bogus-slug"]) ∧
    "totally-bogus-slug" ∉ category_slugs :=
  ⟨rfl, by decide⟩

/-- C7 (amended): the adapter passes candidate `categories` through without
any enumeration check (the 18-value list exists only in the prompt text):
any non-empty candidate value for `categories` appears verbatim in the
compiled query. -/
theorem c7_no_category_filtering (cand : Dict) (cur : Option String) (cnt : Int)
    (v : Value) (hn : NodupKeys cand)
    (hget : dictGet cand "categories" = some v) (hp : passes v = true) :
    dictGet (build_api_params (ai_result_postprocess cand) cur cnt) "categories"
      = some v := by
  have hpre : dictGet (ai_result_postprocess cand) "categories" = some v := by
    unfold ai_result_postprocess
    cases hg : dictGet cand "downloadable" with
    | none =>
      rw [dictGet_dictSet_ne _ _ _ _ (by decide)]
      exact hget
    | some w =>
      cases w with
      | null =>
        rw [dictGet_dictSet_ne _ _ _ _ (by decide)]
        exact hget
      | bool b => exact hget
      | int n => exact hget
      | str s => exact hget
      | arr xs => exact hget
  have hnodup : NodupKeys (ai_result_postprocess cand) := by
    unfold ai_result_postprocess
    cases hg : dictGet cand "downloadable" with
    | none => exact nodupKeys_dictSet _ _ hn
    | some w =>
      cases w with
      | null => exact nodupKeys_dictSet _ _ hn
      | bool b => exact hn
      | int n => exact hn
      | str s => exact hn
      | arr xs => exact hn
  rw [dictGet_build_api_params _ cur cnt _ (by decide) (by decide),
    lastPassing_of_dictGet hnodup hpre hp]

/-- C7 (witness): the amended claim at the concrete bogus-category
candidate. -/
theorem c7_no_category_filtering_witness :
    dictGet (build_api_params
        (ai_result_postprocess
          [("q", Value.str "robot"),
           ("categories", Value.arr [Value.str "totally-bogus-slug"])]) none 24)
      "categories" = some (Value.arr [Value.str "totally-bogus-slug"]) :=
  c7_no_category_filtering
    [("q", Value.str "robot"),
     ("categories", Value.arr [Value.str "totally-bogus-slug"])] none 24
    (Value.arr [Value.str "totally-bogus-slug"])
    (by unfold NodupKeys; decide) rfl rfl

/-- C5: cursor extraction is total and correct — a `None` URL yields
`None`; a URL whose query string starts (after arbitrary cursor-free
fields) with `cursor=X`, for a non-empty opaque token `X` free of the
delimiter/escape characters, yields exactly `X`; and a URL that does not
contain `cursor` at all (and no percent-escape that could decode into it)
yields `None`.  The embedding is a total function, so no input raises.
`extract_pagination_info` derives both cursors through this function. -/
theorem c5_cursor_extraction :
    (parse_cursor_from_url none = none) ∧
    (∀ (base : List Char) (fields : List (List Char)) (x suffix : List Char),
      '?' ∉ base → '#' ∉ base →
      (∀ f ∈ fields, '&' ∉ f ∧ '#' ∉ f ∧ '%' ∉ f ∧ ¬ ("cursor".toList <:+: f)) →
      x ≠ [] → '&' ∉ x → '#' ∉ x → '%' ∉ x → '+' ∉ x →
      (suffix = [] ∨ (∃ t, suffix = '&' :: t) ∨ (∃ t, suffix = '#' :: t)) →
      parse_cursor_from_url (some (String.mk
        (base ++ '?' :: (joinFieldsAmp fields ++ ("cursor=".toList ++ (x ++ suffix))))))
        = some (String.mk x)) ∧
    (∀ u : String, ¬ ("cursor".toList <:+: u.toList) → '%' ∉ u.toList →
      parse_cursor_from_url (some u) = none) ∧
    (∀ r : ApiResponse,
      (extract_pagination_info r).next_cursor = parse_cursor_from_url r.next ∧
      (extract_pagination_info r).has_next = r.next.isSome) := by
  refine ⟨rfl, ?_, ?_, fun r => ⟨rfl, rfl⟩⟩
  · intro base fields x suffix hb1 hb2 hf hx0 hx1 hx2 hx3 hx4 hsuf
    show (parseCursorChars (String.mk
        (base ++ '?' :: (joinFieldsAmp fields ++ ("cursor=".toList ++ (x ++ suffix))))).toList).map
        String.mk = some (String.mk x)
    rw [show (String.mk
        (base ++ '?' :: (joinFieldsAmp fields ++ ("cursor=".toList ++ (x ++ suffix))))).toList
        = base ++ '?' :: (joinFieldsAmp fields ++ ("cursor=".toList ++ (x ++ suffix)))
        from rfl,
      parseCursorChars_extracts base fields x suffix hb1 hb2 hf hx0 hx1 hx2 hx3 hx4 hsuf]
    rfl
  · intro u h1 h2
    show (parseCursorChars u.toList).map String.mk = none
    rw [parseCursorChars_none h1 h2]
    rfl

/-- C5 (witness): the spec scenario — a next-URL
`.../search?cursor=abc123&type=models` yields cursor `abc123`; a URL without
a cursor parameter yields `None`. -/
theorem c5_cursor_extraction_witness :
    parse_cursor_from_url (some (String.mk
      ("https://api.sketchfab.com/v3/search".toList ++ '?' ::
        (joinFieldsAmp [] ++
          ("cursor=".toList ++ ("abc123".toList ++ "&type=models".toList))))))
      = some (String.mk "abc123".toList) ∧
    parse_cursor_from_url (some "https://api.sketchfab.com/v3/models") = none :=
  ⟨c5_cursor_extraction.2.1 "https://api.sketchfab.com/v3/search".toList []
      "abc123".toList "&type=models".toList
      (by decide) (by decide) (by intro f hf; simp at hf)
      (by decide) (by decide) (by decide) (by decide) (by decide)
      (Or.inr (Or.inl ⟨"type=models".toList, rfl⟩)),
   c5_cursor_extraction.2.2.1 "https://api.sketchfab.com/v3/models"
      (by decide) (by decide)⟩

/-- C6 (counterexample): the fallback derivation does not take tags from the
tokens REMAINING after the keyword query — it takes the first five tokens
(overlapping the keyword tokens).  On `"one two three four five six"` the
code produces tags `one,two,three,four,five`, while the spec's rule yields
`four,five,six`. -/
theorem c6_fallback_counterexample :
    dictGet (fallback_params "one two three four five six") "tags"
      = some (Value.arr [Value.str "one", Value.str "two", Value.str "three",
          Value.str "four", Value.str "five"]) ∧
    (spec_fallback_tags "one two three four five six").map
        (fun t => Value.str (String.mk t))
      = [Value.str "four", Value.str "five", Value.str "six"] ∧
    [Value.str "one", Value.str "two", Value.str "three",
        Value.str "four", Value.str "five"]
      ≠ [Value.str "four", Value.str "five", Value.str "six"] := by
  refine ⟨rfl, rfl, ?_⟩
  intro h
  simp at h

/-- C6 (amended): for every free-text input the fallback derivation yields —
deterministically — a keyword query equal to the first three
whitespace-delimited tokens of the lowercased text joined by spaces, tags
equal to those of the FIRST five tokens longer than two characters
(possibly overlapping the keyword tokens; the hyphenation step is the
identity on whitespace-split tokens), `downloadable = true`, and a
non-empty keyword query whenever the text has a non-whitespace
character. -/
theorem c6_fallback_derivation (s : String) :
    dictGet (fallback_params s) "q"
      = some (Value.str (String.mk (joinSpace ((splitWs (pyLower s.toList)).take 3)))) ∧
    dictGet (fallback_params s) "tags"
      = some (Value.arr ((((splitWs (pyLower s.toList)).take 5).filter
          (fun w => w.length > 2)).map (fun w => Value.str (String.mk w)))) ∧
    dictGet (fallback_params s) "downloadable" = some (Value.bool true) ∧
    ((∃ c ∈ s.toList, isPySpace c = false) →
      String.mk (joinSpace ((splitWs (pyLower s.toList)).take 3)) ≠ "") := by
  refine ⟨rfl, ?_, rfl, ?_⟩
  · have hmap : (((splitWs (pyLower s.toList)).take 5).filter
        (fun w => w.length > 2)).map (replaceChar ' ' '-')
        = ((splitWs (pyLower s.toList)).take 5).filter (fun w => w.length > 2) := by
      have h1 : ∀ w ∈ ((splitWs (pyLower s.toList)).take 5).filter
          (fun w => w.length > 2), replaceChar ' ' '-' w = id w := by
        intro w hw
        have hw5 : w ∈ (splitWs (pyLower s.toList)).take 5 :=
          (List.mem_filter.mp hw).1
        have hwm : w ∈ splitWsGo [] (pyLower s.toList) :=
          List.mem_of_mem_take hw5
        exact replaceChar_eq_self
          (splitWsGo_members_nonspace (pyLower s.toList) [] (by simp) w hwm)
      rw [List.map_congr_left h1, List.map_id]
    rw [← hmap]
    rfl
  · rintro ⟨c, hc, hcs⟩
    have hc' : pyCharLower c ∈ pyLower s.toList := List.mem_map_of_mem _ hc
    have hcs' : isPySpace (pyCharLower c) = false := isPySpace_pyCharLower_eq_false hcs
    have hsw : splitWs (pyLower s.toList) ≠ [] := splitWs_ne_nil hc' hcs'
    obtain ⟨w, ws, hw⟩ : ∃ w ws, splitWs (pyLower s.toList) = w :: ws := by
      cases hsp : splitWs (pyLower s.toList) with
      | nil => exact absurd hsp hsw
      | cons w ws => exact ⟨w, ws, rfl⟩
    have hwne : w ≠ [] := by
      refine splitWsGo_members_ne_nil (pyLower s.toList) [] w ?_
      show w ∈ splitWs (pyLower s.toList)
      rw [hw]
      exact List.mem_cons_self _ _
    rw [hw, List.take_succ_cons]
    intro he
    exact joinSpace_ne_nil hwne (congrArg String.data he)

/-- C6 (witness): the amended claim at the spec's own scenario text
`"best quality sci fi robot"`, whose fallback keyword query is
`"best quality sci"`. -/
theorem c6_fallback_witness :
    dictGet (fallback_params "best quality sci fi robot") "q"
      = some (Value.str (String.mk (joinSpace
          ((splitWs (pyLower ("best quality sci fi robot").toList)).take 3)))) ∧
    String.mk (joinSpace
        ((splitWs (pyLower ("best quality sci fi robot").toList)).take 3)) ≠ "" ∧
    String.mk (joinSpace
        ((splitWs (pyLower ("best quality sci fi robot").toList)).take 3))
      = "best quality sci" :=
  ⟨(c6_fallback_derivation "best quality sci fi robot").1,
   (c6_fallback_derivation "best quality sci fi robot").2.2.2
      ⟨'b', by decide, by decide⟩,
   rfl⟩

/-- C8: when the remote search call fails, the invocation still completes —
for every input and every NLU outcome, a failing transport produces exactly
one metadata record (and nothing else), that record's `error` field carries
the failure description, its `result_count` is 0, and the outcome holds
zero results. -/
theorem c8_transport_failure_recovered (input : Dict) (nlu : NluOutcome)
    (msg : String) :
    (run_pipeline input nlu (ApiOutcome.failure msg)).records
        = [Record.metaRec
            (metadata_record (run_pipeline input nlu (ApiOutcome.failure msg)).final)] ∧
    (metadata_record (run_pipeline input nlu (ApiOutcome.failure msg)).final).error
        = some msg ∧
    (metadata_record (run_pipeline input nlu (ApiOutcome.failure msg)).final).result_count
        = 0 ∧
    (run_pipeline input nlu (ApiOutcome.failure msg)).final.results = [] := by
  by_cases h : route_decision (initial_state input).use_ai
      (initial_state input).natural_query = "ai_processing"
  · simp only [run_pipeline, if_pos h]
    cases nlu <;> exact ⟨rfl, rfl, rfl, rfl⟩
  · simp only [run_pipeline, if_neg h]
    exact ⟨rfl, rfl, rfl, rfl⟩

/-- C9: for every invocation the output sink receives exactly one metadata
record first, then one record per raw result item in the order returned by
the remote service and otherwise unmodified, and nothing else. -/
theorem c9_output_ordering (input : Dict) (nlu : NluOutcome) (t : ApiOutcome) :
    (run_pipeline input nlu t).records
        = Record.metaRec (metadata_record (run_pipeline input nlu t).final)
          :: ((run_pipeline input nlu t).final.results.map Record.itemRec) ∧
    List.countP Record.isMeta (run_pipeline input nlu t).records = 1 ∧
    (run_pipeline input nlu t).records.filterMap Record.itemPayload
        = (run_pipeline input nlu t).final.results ∧
    (run_pipeline input nlu t).final.results = transport_results t := by
  refine ⟨rfl, ?_, ?_, ?_⟩
  · show List.countP Record.isMeta
        (output_records (run_pipeline input nlu t).final) = 1
    unfold output_records
    rw [List.countP_cons, countP_isMeta_map_itemRec]
    simp [Record.isMeta]
  · show (output_records (run_pipeline input nlu t).final).filterMap
        Record.itemPayload = (run_pipeline input nlu t).final.results
    unfold output_records
    rw [List.filterMap_cons]
    exact filterMap_itemPayload_map_itemRec _
  · cases t <;> rfl
